import Mathlib

/-!
Verification of the subtitle segmentation and timing-alignment engine of the
tanglishSubtitleBackend repository.

The embedded functions are shallow translations of:
  * `split_text_into_segments`, `create_smart_fallback_segments`,
    `create_srt_content`, `align_text_to_timing`   (api/services/srt_service.py)
  * `format_timestamp`, `generate_precise_timed_segments`
    (api/services/whisper_functions.py)

Python floats are modelled as exact rationals (ℚ); Python strings as Lean
strings (sequences of Unicode code points, matching Python's `str`).  The
I/O-bound callers (file paths, Whisper invocation, moviepy) are stripped: the
pure cores take the recognizer's raw segments / the media duration as
parameters, exactly as the spec's external interface describes.
-/

namespace Tanglish

/-- Python `str.isspace` characters relevant to `\s` / `strip()` / `split()`
for the ASCII range: space, tab, newline, carriage return, vertical tab,
form feed. -/
def pyIsSpace (c : Char) : Bool :=
  c = ' ' || c = '\t' || c = '\n' || c = '\r' || c = '\x0b' || c = '\x0c'

/-- Python `str.strip()` on a list of characters. -/
def stripChars (l : List Char) : List Char :=
  ((l.dropWhile pyIsSpace).reverse.dropWhile pyIsSpace).reverse

/-- Python `str.strip()`. -/
def pyStrip (s : String) : String :=
  ⟨stripChars s.toList⟩

/-- Helper for Python `str.split()` (no separator): accumulate the current
word (reversed) and split on whitespace runs, dropping empty pieces. -/
def wordsAux (acc : List Char) : List Char → List (List Char)
  | [] => if acc.isEmpty then [] else [acc.reverse]
  | c :: rest =>
    if pyIsSpace c then
      if acc.isEmpty then wordsAux [] rest else acc.reverse :: wordsAux [] rest
    else
      wordsAux (c :: acc) rest

/-- Python `str.split()` (split on whitespace, no empty strings). -/
def pyWords (s : String) : List String :=
  (wordsAux [] s.toList).map (fun l => ⟨l⟩)

/-- Python `len(s.split())`. -/
def numWords (s : String) : Nat :=
  (pyWords s).length

/-- Characters of the clause-splitting pattern `[,;:\n]` in
`split_text_into_segments`. -/
def isClauseSep (c : Char) : Bool :=
  c = ',' || c = ';' || c = ':' || c = '\n'

/-- Helper for `re.split(r'[,;:\n]', s)`: every single separator occurrence
cuts the string (empty pieces are produced between adjacent separators). -/
def clausesAux (acc : List Char) : List Char → List (List Char)
  | [] => [acc.reverse]
  | c :: rest =>
    if isClauseSep c then acc.reverse :: clausesAux [] rest
    else clausesAux (c :: acc) rest

/-- Python `re.split(r'[,;:\n]', s)`. -/
def splitClauses (s : String) : List String :=
  (clausesAux [] s.toList).map (fun l => ⟨l⟩)

/-- Sentence-ending punctuation of the pattern `[.!?।]+(?:\s|$)`. -/
def isSentPunct (c : Char) : Bool :=
  c = '.' || c = '!' || c = '?' || c = '।'

/-- Helper for `re.split(r'[.!?।]+(?:\s|$)', text)`, as a single-pass state
machine.  `acc` is the current piece (reversed); `punct` is the pending run
of sentence punctuation (reversed).  A maximal punctuation run followed by a
whitespace character (which the match consumes) or by the end of the string
is a separator; a run followed by any other character matches nowhere inside
the run (every proper suffix of the run is still followed by a non-space,
non-end character), so the run is flushed back as ordinary text. -/
def sentAux (acc punct : List Char) : List Char → List (List Char)
  | [] => if punct.isEmpty then [acc.reverse] else [acc.reverse, []]
  | c :: rest =>
    if isSentPunct c then
      sentAux acc (c :: punct) rest
    else if pyIsSpace c then
      if punct.isEmpty then sentAux (c :: acc) punct rest
      else acc.reverse :: sentAux [] [] rest
    else
      sentAux (c :: (punct ++ acc)) [] rest

/-- Python `re.split(r'[.!?।]+(?:\s|$)', text)`. -/
def splitSentences (s : String) : List String :=
  (sentAux [] [] s.toList).map (fun l => ⟨l⟩)

/-- The length/word-count bound test used throughout
`split_text_into_segments`:
`len(s) <= max_chars and len(s.split()) <= max_words`. -/
def fitsBounds (maxChars maxWords : Nat) (s : String) : Bool :=
  s.length ≤ maxChars && numWords s ≤ maxWords

/-- The word-by-word greedy packing loop of `split_text_into_segments`
(lines 60–74): returns the emitted segments, in order, and the final
`word_segment` buffer. -/
def packWords (maxChars maxWords : Nat) : List String → String → List String × String
  | [], wseg => ([], wseg)
  | w :: ws, wseg =>
    let test := if wseg ≠ "" then wseg ++ " " ++ w else w
    if fitsBounds maxChars maxWords test then
      packWords maxChars maxWords ws test
    else
      let r := packWords maxChars maxWords ws w
      ((if wseg ≠ "" then [wseg] else []) ++ r.1, r.2)

/-- The clause-level greedy packing loop of `split_text_into_segments`
(lines 44–76): returns the emitted segments, in order, and the final
`current_segment` buffer. -/
def packPhrases (maxChars maxWords : Nat) : List String → String → List String × String
  | [], cur => ([], cur)
  | p0 :: ps, cur =>
    let p := pyStrip p0
    if p = "" then packPhrases maxChars maxWords ps cur
    else
      let test := if cur ≠ "" then cur ++ " " ++ p else p
      if fitsBounds maxChars maxWords test then
        packPhrases maxChars maxWords ps test
      else
        let emitted := if cur ≠ "" then [cur] else []
        if maxChars < p.length || maxWords < numWords p then
          let wr := packWords maxChars maxWords (pyWords p) ""
          let cur2 := if wr.2 ≠ "" then wr.2 else cur
          let r := packPhrases maxChars maxWords ps cur2
          (emitted ++ wr.1 ++ r.1, r.2)
        else
          let r := packPhrases maxChars maxWords ps p
          (emitted ++ r.1, r.2)

/-- Processing of one stripped sentence that exceeds the bounds
(lines 41–79 of `split_text_into_segments`). -/
def processLongSentence (maxChars maxWords : Nat) (sentence : String) : List String :=
  let r := packPhrases maxChars maxWords (splitClauses sentence) ""
  r.1 ++ (if r.2 ≠ "" then [r.2] else [])

/-- TextSegmenter: `split_text_into_segments(text, max_chars, max_words)`
(srt_service.py, lines 18–81). -/
def split_text_into_segments (text : String) (maxChars maxWords : Nat) : List String :=
  if text = "" then []
  else
    let t := pyStrip text
    if t = "" then []
    else
      let segs := (splitSentences t).map (fun s0 =>
        let s := pyStrip s0
        if s = "" then []
        else if fitsBounds maxChars maxWords s then [s]
        else processLongSentence maxChars maxWords s)
      ((segs.flatten).map pyStrip).filter (fun s => s ≠ "")

/-- A timed segment as handled by the aligner and the renderer:
a Python dict with keys `start`, `end`, `text`.  (`end` is a Lean keyword,
so the field is called `stop`.) -/
structure TSeg where
  start : ℚ
  stop : ℚ
  text : String
deriving DecidableEq

/-- A raw recognized segment as produced by the external speech recognizer:
`start`/`end` times in seconds, text, and a confidence (`avg_logprob`). -/
structure RawSeg where
  start : ℚ
  stop : ℚ
  text : String
  conf : ℚ
deriving DecidableEq

/-- A timed segment as built by `generate_precise_timed_segments`:
keys `start`, `end`, `text`, `confidence`, `word_count`. -/
structure NSeg where
  start : ℚ
  stop : ℚ
  text : String
  conf : ℚ
  wordCount : ℕ
deriving DecidableEq

/-- A timed segment as built by `create_smart_fallback_segments`:
keys `start`, `end`, `text`, `confidence`. -/
structure FSeg where
  start : ℚ
  stop : ℚ
  text : String
  conf : ℚ
deriving DecidableEq

/-! ## DurationEstimator / FallbackTimeline
(`create_smart_fallback_segments`, srt_service.py lines 84–168; the pure core
takes the text and the media duration, which the Python code reads from the
video/audio files.) -/

/-- Script detection `is_tamil = any(ord(c) > 127 for c in text[:100])` (line 107). -/
def isTamilText (t : String) : Bool :=
  (t.toList.take 100).any (fun c => 127 < c.toNat)

/-- Characters-per-second pacing rate (lines 109–114). -/
def chars_per_second (isTamil : Bool) : ℚ :=
  if isTamil then 6 else 10

/-- Words-per-second pacing rate (lines 109–114). -/
def words_per_second (isTamil : Bool) : ℚ :=
  if isTamil then 2.5 else 3.5

/-- The rate profile selected by the script-family detection. -/
def ratesFor (t : String) : ℚ × ℚ :=
  (chars_per_second (isTamilText t), words_per_second (isTamilText t))

/-- The per-segment duration estimate of `create_smart_fallback_segments`
(lines 124–138): the larger of the character-rate and word-rate estimates,
then `max(min_duration, min(max_duration, estimated))` with
`min_duration = max(1.2, word_count*0.4)` and
`max_duration = min(5.0, char_count*0.15)`. -/
def estimate_duration (t : String) (isTamil : Bool) : ℚ :=
  let charCount : ℚ := (t.length : ℚ)
  let wordCount : ℚ := (numWords t : ℚ)
  let charDuration := charCount / chars_per_second isTamil
  let wordDuration := wordCount / words_per_second isTamil
  let estimated := max charDuration wordDuration
  let minDuration := max 1.2 (wordCount * 0.4)
  let maxDuration := min 5 (charCount * 0.15)
  max minDuration (min maxDuration estimated)

/-- The timing-assignment loop of `create_smart_fallback_segments`
(lines 117–161): walk the text segments from `current_time`, clamp each end
to the usable duration, stop when under 1 s of headroom remains or when the
next start would reach the usable duration. -/
def fallbackLoop (isTamil : Bool) (usable : ℚ) : List String → ℚ → List FSeg
  | [], _ => []
  | t :: rest, cur =>
    let duration := estimate_duration t isTamil
    let endTime := cur + duration
    if usable < endTime then
      if usable ≤ cur + 1 then []
      else
        ⟨cur, usable, t, 0.3⟩ ::
          (if usable ≤ usable + 0.15 then []
           else fallbackLoop isTamil usable rest (usable + 0.15))
    else
      ⟨cur, endTime, t, 0.3⟩ ::
        (if usable ≤ endTime + 0.15 then []
         else fallbackLoop isTamil usable rest (endTime + 0.15))

/-- Pure core of `create_smart_fallback_segments(audio_path, video_path, text)`:
the media duration (read from the video file in the Python code) is passed
as a parameter. -/
def create_smart_fallback_segments (text : String) (videoDuration : ℚ) : List FSeg :=
  let segments := split_text_into_segments text 60 8
  if segments = [] then []
  else fallbackLoop (isTamilText text) (videoDuration * 0.95) segments 0.2

/-! ## CueRenderer (`format_timestamp`, whisper_functions.py lines 25–32;
`create_srt_content`, srt_service.py lines 174–217). -/

/-- Python float `%` for a positive modulus: `a - b*⌊a/b⌋`. -/
def qmod (a b : ℚ) : ℚ := a - b * (⌊a / b⌋ : ℤ)

/-- Zero-padded 2-digit decimal (`{:02d}`). -/
def pad2 (n : ℕ) : String :=
  if n < 10 then "0" ++ toString n else toString n

/-- Zero-padded 3-digit decimal (`{:03d}`). -/
def pad3 (n : ℕ) : String :=
  if n < 10 then "00" ++ toString n
  else if n < 100 then "0" ++ toString n
  else toString n

/-- Timestamp rendering `format_timestamp(seconds)` (whisper_functions.py lines 25–32):
`HH:MM:SS,mmm`, negative inputs clamped to zero; `int` truncation on the
non-negative intermediate values is floor. -/
def format_timestamp (seconds : ℚ) : String :=
  let s := max 0 seconds
  let hours := (⌊s / 3600⌋).toNat
  let minutes := (⌊qmod s 3600 / 60⌋).toNat
  let secs := (⌊qmod s 60⌋).toNat
  let milliseconds := (⌊qmod s 1 * 1000⌋).toNat
  pad2 hours ++ ":" ++ pad2 minutes ++ ":" ++ pad2 secs ++ "," ++ pad3 milliseconds

/-- Python `str.lower()` (ASCII case mapping suffices for the conjunction
comparisons below). -/
def pyLower (s : String) : String :=
  ⟨s.toList.map Char.toLower⟩

/-- The conjunction words avoided as line-break neighbours
(srt_service.py line 197). -/
def break_words : List String :=
  ["and", "or", "but", "so", "மற்றும்", "அல்லது", "ஆனால்"]

/-- The two-line wrapping of `create_srt_content` (lines 190–209): texts over
50 characters with more than 6 words are split at a word boundary near the
midpoint (preferring not to break next to a conjunction), kept as one line
if either resulting line would exceed 35 characters. -/
def wrapText (text : String) : String :=
  if 50 < text.length then
    let words := pyWords text
    if 6 < words.length then
      let mid0 := words.length / 2
      let lo := max 1 (mid0 - 2)
      let hi := min (words.length - 1) (mid0 + 3)
      let found := (List.range' lo (hi - lo)).find? (fun i =>
        !(break_words.contains (pyLower (words.getD (i - 1) ""))) &&
        !(break_words.contains (pyLower (words.getD i ""))))
      let midPoint := found.getD mid0
      let line1 := String.intercalate " " (words.take midPoint)
      let line2 := String.intercalate " " (words.drop midPoint)
      if line1.length ≤ 35 && line2.length ≤ 35 then line1 ++ "\n" ++ line2
      else text
    else text
  else text

/-- One rendered SRT block: `index\nstart --> end\ntext\n\n` (lines 211–213). -/
def cueBlock (idx : ℕ) (s : TSeg) : String :=
  toString idx ++ "\n" ++ format_timestamp s.start ++ " --> " ++
    format_timestamp s.stop ++ "\n" ++ wrapText (pyStrip s.text) ++ "\n\n"

/-- The rendering loop of `create_srt_content` (lines 179–215): the subtitle
index starts at 1 and is incremented only when a block is emitted; segments
whose text strips to empty are skipped. -/
def srtAux : ℕ → List TSeg → String
  | _, [] => ""
  | idx, s :: rest =>
    if pyStrip s.text = "" then srtAux idx rest
    else cueBlock idx s ++ srtAux (idx + 1) rest

/-- CueRenderer: `create_srt_content(timed_segments)` (srt_service.py lines 174–217). -/
def create_srt_content (l : List TSeg) : String :=
  if l = [] then "" else srtAux 1 l

/-- In-order concatenation of a list of strings. -/
def joinStrings : List String → String
  | [] => ""
  | a :: l => a ++ joinStrings l

/-- Modelled from the spec: `renderSubtitleFile` serializes one block per
segment whose trimmed text is non-empty, blocks indexed consecutively from 1,
concatenated in order. -/
def renderSubtitleFileSpec (l : List TSeg) : String :=
  joinStrings (((l.filter (fun s => pyStrip s.text != "")).enumFrom 1).map
    (fun p => cueBlock p.1 p.2))

/-! ## TimingNormalizer (`generate_precise_timed_segments`,
whisper_functions.py lines 190–293; the pure core takes the recognizer's raw
segments and the audio/video offset as parameters). -/

/-- Constant `min_segment_duration = 0.8` (line 222). -/
def min_segment_duration : ℚ := 0.8

/-- Constant `max_segment_duration = 6.0` (line 223). -/
def max_segment_duration : ℚ := 6

/-- Constant `min_gap = 0.1` (line 258). -/
def min_gap : ℚ := 0.1

/-- The filter/shift/clip loop of `generate_precise_timed_segments`
(lines 225–251): drop segments shorter than `min_segment_duration` or with
trimmed text shorter than 2 characters; shift by the offset flooring the
start at 0; truncate the end when the duration exceeds
`max_segment_duration`. -/
def preSegs (raws : List RawSeg) (avOffset : ℚ) : List NSeg :=
  raws.filterMap (fun r =>
    if r.stop - r.start < min_segment_duration then none
    else
      let text := pyStrip r.text
      if text.length < 2 then none
      else
        let startTime := max 0 (r.start - avOffset)
        let endTime := r.stop - avOffset
        let endTime2 :=
          if max_segment_duration < endTime - startTime then
            startTime + max_segment_duration
          else endTime
        some ⟨startTime, endTime2, text, r.conf, numWords text⟩)

/-- Stable insertion of a segment by `start` (equal keys keep input order),
modelling `list.sort(key=lambda x: x['start'])`. -/
def insertByStart (x : NSeg) : List NSeg → List NSeg
  | [] => [x]
  | y :: ys => if x.start < y.start then x :: y :: ys else y :: insertByStart x ys

/-- Stable sort by `start` (`timed_segments.sort(key=lambda x: x['start'])`,
line 254). -/
def sortByStart : List NSeg → List NSeg
  | [] => []
  | x :: xs => insertByStart x (sortByStart xs)

/-- The overlap-resolution loop of `generate_precise_timed_segments`
(lines 256–279), with the last element of `cleaned_segments` held as `prev`:
an overlapping segment is either bumped to `prev.end + min_gap`, or — when
its remaining duration would fall below `min_segment_duration` — merged into
`prev` (text concatenated, `prev.end` set to the segment's end). -/
def resolveAux (prev : NSeg) : List NSeg → List NSeg
  | [] => [prev]
  | s :: rest =>
    if s.start ≤ prev.stop then
      if s.stop - (prev.stop + min_gap) < min_segment_duration then
        resolveAux { prev with stop := s.stop, text := prev.text ++ " " ++ s.text } rest
      else
        prev :: resolveAux { s with start := prev.stop + min_gap } rest
    else
      prev :: resolveAux s rest

/-- Overlap resolution over the whole sorted list. -/
def resolveOverlaps : List NSeg → List NSeg
  | [] => []
  | s :: rest => resolveAux s rest

/-- Pure core of `generate_precise_timed_segments(audio_path, video_path)`:
takes the recognizer's raw segments and the measured audio/video offset. -/
def generate_precise_timed_segments (raws : List RawSeg) (avOffset : ℚ) : List NSeg :=
  resolveOverlaps (sortByStart (preSegs raws avOffset))

/-! ## Aligner (`align_text_to_timing`, srt_service.py lines 219–312). -/

/-- Hint test `language_hint in ['ta', 'tamil']` (lines 227–228). -/
def tamilHint (hint : String) : Bool :=
  hint = "ta" || hint = "tamil"

/-- Bound `max_chars = 50 if tamil else 60` (line 227). -/
def maxCharsFor (hint : String) : ℕ :=
  if tamilHint hint then 50 else 60

/-- Bound `max_words = 6 if tamil else 8` (line 228). -/
def maxWordsFor (hint : String) : ℕ :=
  if tamilHint hint then 6 else 8

/-- The run boundary of the merge regime:
`int(i * (m / n))` with `segments_per_new = m / n` in float arithmetic
(lines 258–262); the argument is non-negative so `int` truncation is floor. -/
def run_boundary (n m i : ℕ) : ℕ :=
  (⌊(i : ℚ) * ((m : ℚ) / (n : ℚ))⌋).toNat

/-- Default segment for (always in-range) list indexing. -/
def dftSeg : TSeg := ⟨0, 0, ""⟩

/-- The proportional-redistribution loop of `align_text_to_timing`
(lines 273–309): per-segment duration from the character share clamped to
`[max(1.0, words*0.5), min(5.0, chars*0.12)]`, laid out from `current_time`
with a `0.1` gap, ends clamped to `total_end_time`, stopping once the cursor
reaches `total_end_time`. -/
def redistributeDuration (totalChars nsegs : ℕ) (totalDuration : ℚ)
    (t : String) : ℚ :=
  let duration0 :=
    if 0 < totalChars then totalDuration * ((t.length : ℚ) / (totalChars : ℚ))
    else totalDuration / (nsegs : ℚ)
  let minDuration := max 1 ((numWords t : ℚ) * 0.5)
  let maxDuration := min 5 ((t.length : ℚ) * 0.12)
  max minDuration (min maxDuration duration0)

/-- The walking part of the redistribution loop. -/
def redistributeAux (totalChars nsegs : ℕ) (totalDuration totalEnd : ℚ) :
    List String → ℚ → List TSeg
  | [], _ => []
  | t :: rest, cur =>
    let endTime := min (cur + redistributeDuration totalChars nsegs totalDuration t) totalEnd
    ⟨cur, endTime, t⟩ ::
      (if totalEnd ≤ endTime + 0.1 then []
       else redistributeAux totalChars nsegs totalDuration totalEnd rest (endTime + 0.1))

/-- Aligner: `align_text_to_timing(base_timed_segments, new_text, language_hint)`
(srt_service.py lines 219–312). -/
def align_text_to_timing (base : List TSeg) (newText : String) (hint : String) :
    List TSeg :=
  if base = [] || newText = "" then []
  else
    let newSegments :=
      split_text_into_segments newText (maxCharsFor hint) (maxWordsFor hint)
    if newSegments = [] then []
    else
      let totalStart := (base.headD dftSeg).start
      let totalEnd := (base.getLastD dftSeg).stop
      let totalDuration := totalEnd - totalStart
      let n := newSegments.length
      let m := base.length
      if n = m then
        (base.zip newSegments).map (fun p => ⟨p.1.start, p.1.stop, p.2⟩)
      else if n < m then
        (List.range n).map (fun i =>
          let startIdx := run_boundary n m i
          let endIdx := min (run_boundary n m (i + 1)) m
          ⟨(base.getD startIdx dftSeg).start, (base.getD (endIdx - 1) dftSeg).stop,
            newSegments.getD i ""⟩)
      else
        redistributeAux ((newSegments.map String.length).sum) n totalDuration
          totalEnd newSegments totalStart

unseal Rat.ofScientific Rat.add Rat.sub Rat.mul Rat.inv

/-! ## Theorems -/

/-- C8: Empty inputs yield empty outputs and no exception:
`align(baseTimeline, "", hint)` returns the empty sequence for every base
timeline, and the normalizer applied to an empty raw-segment list returns
the empty sequence for every offset. -/
theorem claim_C8_empty_input_safety :
    (∀ (base : List TSeg) (hint : String), align_text_to_timing base "" hint = []) ∧
    (∀ off : ℚ, generate_precise_timed_segments [] off = []) := by
  constructor
  · intro base hint
    simp [align_text_to_timing]
  · intro off
    rfl

/-- C9: on a raw segment entirely contained in its predecessor whose
post-gap duration would fall below `min_segment_duration`, the overlap
merge sets the predecessor's end to the contained segment's smaller end:
the surviving segment's end decreases from 6 to 3. -/
theorem claim_C9_merge_shrinks_end :
    generate_precise_timed_segments [⟨0, 6, "aa", 0⟩, ⟨1, 3, "bb", 0⟩] 0 =
      [⟨0, 3, "aa bb", 0, 1⟩] ∧ (3 : ℚ) < 6 := by
  refine ⟨by decide, by norm_num⟩

/-- C10: the fallback's script-family detection selects the slower Tamil
rates (6 chars/s, 2.5 words/s) if and only if some character among the
first 100 of the text has a code point above 127. -/
theorem claim_C10_script_detection (t : String) :
    ratesFor t = (6, 5/2) ↔ ∃ c ∈ t.toList.take 100, 127 < c.toNat := by
  have hiff : isTamilText t = true ↔ ∃ c ∈ t.toList.take 100, 127 < c.toNat := by
    simp [isTamilText]
  rw [← hiff]
  unfold ratesFor chars_per_second words_per_second
  cases h : isTamilText t
  · simp only [h, Bool.false_eq_true, if_false, iff_false]
    intro hcontra
    have h1 : (10 : ℚ) = 6 := congrArg Prod.fst hcontra
    norm_num at h1
  · simp only [h, if_true, iff_true]
    have h2 : ((6 : ℚ), (2.5 : ℚ)) = ((6 : ℚ), 5 / 2) := by decide
    exact h2

/-- C2 fails as stated: on the one-character segment `"a"` the estimator
returns 1.2, which exceeds the ceiling `min(5.0, 1 × 0.15) = 0.15` —
when the floor exceeds the ceiling, the floor wins. -/
theorem claim_C2_counterexample :
    ¬ (estimate_duration "a" false ≤
        min 5 ((("a" : String).length : ℚ) * 0.15)) := by
  decide

/-- C2 (amended): the estimator returns
`max(floor, min(ceiling, estimate))`; hence the returned value lies in
`[floor, ceiling]` whenever `floor ≤ ceiling` (for very short texts the
ceiling can drop below the floor, and then the floor wins and the ceiling
is exceeded). -/
theorem claim_C2_amended_clamped (t : String) (tam : Bool)
    (h : max 1.2 ((numWords t : ℚ) * 0.4) ≤ min 5 ((t.length : ℚ) * 0.15)) :
    max 1.2 ((numWords t : ℚ) * 0.4) ≤ estimate_duration t tam ∧
    estimate_duration t tam ≤ min 5 ((t.length : ℚ) * 0.15) := by
  unfold estimate_duration
  refine ⟨le_max_left _ _, max_le h (min_le_left _ _)⟩

/-- Witness for C2 (amended) at segment `"Hello world"` (floor 1.2,
ceiling 1.65). -/
theorem claim_C2_amended_clamped_witness :
    (max 1.2 ((numWords "Hello world" : ℚ) * 0.4) ≤
      min 5 ((("Hello world" : String).length : ℚ) * 0.15)) ∧
    max 1.2 ((numWords "Hello world" : ℚ) * 0.4) ≤
      estimate_duration "Hello world" false ∧
    estimate_duration "Hello world" false ≤
      min 5 ((("Hello world" : String).length : ℚ) * 0.15) :=
  ⟨by decide, claim_C2_amended_clamped "Hello world" false (by decide)⟩

/-- Every segment emitted by the fallback timing loop has its end clamped to
the usable duration. -/
theorem fallbackLoop_stop_le (tam : Bool) (usable : ℚ) :
    ∀ (l : List String) (cur : ℚ) (s : FSeg),
      s ∈ fallbackLoop tam usable l cur → s.stop ≤ usable := by
  intro l
  induction l with
  | nil =>
    intro cur s hs
    simp [fallbackLoop] at hs
  | cons t rest ih =>
    intro cur s hs
    simp only [fallbackLoop] at hs
    by_cases h1 : usable < cur + estimate_duration t tam
    · rw [if_pos h1] at hs
      by_cases h2 : usable ≤ cur + 1
      · rw [if_pos h2] at hs
        simp at hs
      · rw [if_neg h2] at hs
        rcases List.mem_cons.mp hs with rfl | hs2
        · exact le_refl _
        · by_cases h3 : usable ≤ usable + 0.15
          · rw [if_pos h3] at hs2
            simp at hs2
          · rw [if_neg h3] at hs2
            exact ih _ _ hs2
    · rw [if_neg h1] at hs
      rcases List.mem_cons.mp hs with rfl | hs2
      · exact le_of_not_lt h1
      · by_cases h3 : usable ≤ cur + estimate_duration t tam + 0.15
        · rw [if_pos h3] at hs2
          simp at hs2
        · rw [if_neg h3] at hs2
          exact ih _ _ hs2

/-- C5: no segment returned by the fallback timeline has an end exceeding
`totalDurationSeconds × 0.95`; in particular with a 10-second duration no
end exceeds 9.5. -/
theorem claim_C5_fallback_margin (text : String) (d : ℚ) (s : FSeg)
    (hmem : s ∈ create_smart_fallback_segments text d) : s.stop ≤ d * 0.95 := by
  unfold create_smart_fallback_segments at hmem
  by_cases h : split_text_into_segments text 60 8 = []
  · rw [if_pos h] at hmem
    simp at hmem
  · rw [if_neg h] at hmem
    exact fallbackLoop_stop_le _ _ _ _ _ hmem

/-- Witness for C5: on `("Hello world", 10.0)` the fallback produces the
segment `[0.2, 1.4]`, and its end is at most `10 × 0.95 = 9.5`. -/
theorem claim_C5_fallback_margin_witness :
    (⟨0.2, 1.4, "Hello world", 0.3⟩ : FSeg) ∈
      create_smart_fallback_segments "Hello world" 10 ∧
    (⟨0.2, 1.4, "Hello world", 0.3⟩ : FSeg).stop ≤ 10 * 0.95 :=
  ⟨by decide, claim_C5_fallback_margin "Hello world" 10 _ (by decide)⟩

/-- The head of a non-empty redistribute output starts exactly at the
cursor, and its end is clamped to `totalEnd`. -/
theorem redistributeAux_cons (tc ns : ℕ) (td te : ℚ) (t : String)
    (rest : List String) (cur : ℚ) :
    ∃ e tail, redistributeAux tc ns td te (t :: rest) cur =
      ⟨cur, e, t⟩ :: tail ∧ e ≤ te :=
  ⟨_, _, rfl, min_le_right _ _⟩

/-- Every end emitted by the redistribute loop is clamped to `totalEnd`. -/
theorem redistributeAux_stop_le (tc ns : ℕ) (td te : ℚ) :
    ∀ (l : List String) (cur : ℚ) (s : TSeg),
      s ∈ redistributeAux tc ns td te l cur → s.stop ≤ te := by
  intro l
  induction l with
  | nil =>
    intro cur s hs
    simp [redistributeAux] at hs
  | cons t rest ih =>
    intro cur s hs
    simp only [redistributeAux] at hs
    rcases List.mem_cons.mp hs with rfl | h2
    · exact min_le_right _ _
    · by_cases hc : te ≤ min (cur + redistributeDuration tc ns td t) te + 0.1
      · rw [if_pos hc] at h2
        simp at h2
      · rw [if_neg hc] at h2
        exact ih _ _ h2

/-- Consecutive redistribute outputs are separated by exactly the 0.1 s gap. -/
theorem redistributeAux_gaps (tc ns : ℕ) (td te : ℚ) :
    ∀ (l : List String) (cur : ℚ),
      List.Chain' (fun a b => b.start = a.stop + 0.1)
        (redistributeAux tc ns td te l cur) := by
  intro l
  induction l with
  | nil =>
    intro cur
    simp [redistributeAux]
  | cons t rest ih =>
    intro cur
    simp only [redistributeAux]
    rw [List.chain'_cons']
    constructor
    · intro y hy
      by_cases hc : te ≤ min (cur + redistributeDuration tc ns td t) te + 0.1
      · rw [if_pos hc] at hy
        simp at hy
      · rw [if_neg hc] at hy
        cases rest with
        | nil => simp [redistributeAux] at hy
        | cons t2 r2 =>
          simp only [redistributeAux, List.head?_cons, Option.mem_some_iff] at hy
          subst hy
          rfl
    · by_cases hc : te ≤ min (cur + redistributeDuration tc ns td t) te + 0.1
      · rw [if_pos hc]
        exact List.chain'_nil
      · rw [if_neg hc]
        exact ih _

/-- C6: in the aligner's redistribute regime (more new segments than base
segments) the first output starts exactly at the base timeline's first
start, consecutive outputs are separated by a 0.1 s gap, and no output end
exceeds the base timeline's last end. -/
theorem claim_C6_redistribute_regime (base : List TSeg) (text hint : String)
    (hbase : base ≠ [])
    (hn : base.length <
      (split_text_into_segments text (maxCharsFor hint) (maxWordsFor hint)).length) :
    (align_text_to_timing base text hint).head?.map TSeg.start =
      some (base.headD dftSeg).start ∧
    List.Chain' (fun a b => b.start = a.stop + 0.1)
      (align_text_to_timing base text hint) ∧
    ∀ s ∈ align_text_to_timing base text hint,
      s.stop ≤ (base.getLastD dftSeg).stop := by
  have htext : text ≠ "" := by
    intro h
    rw [h] at hn
    simp [split_text_into_segments] at hn
  have hsegs :
      split_text_into_segments text (maxCharsFor hint) (maxWordsFor hint) ≠ [] := by
    intro h
    rw [h] at hn
    simp at hn
  have heq : align_text_to_timing base text hint =
      redistributeAux
        (((split_text_into_segments text (maxCharsFor hint) (maxWordsFor hint)).map
          String.length).sum)
        (split_text_into_segments text (maxCharsFor hint) (maxWordsFor hint)).length
        ((base.getLastD dftSeg).stop - (base.headD dftSeg).start)
        (base.getLastD dftSeg).stop
        (split_text_into_segments text (maxCharsFor hint) (maxWordsFor hint))
        (base.headD dftSeg).start := by
    unfold align_text_to_timing
    rw [if_neg (by simp [hbase, htext]), if_neg hsegs,
      if_neg (by omega : ¬ (split_text_into_segments text (maxCharsFor hint)
        (maxWordsFor hint)).length = base.length),
      if_neg (by omega : ¬ (split_text_into_segments text (maxCharsFor hint)
        (maxWordsFor hint)).length < base.length)]
  rw [heq]
  refine ⟨?_, redistributeAux_gaps _ _ _ _ _ _, redistributeAux_stop_le _ _ _ _ _ _⟩
  obtain ⟨t, rest, hcons⟩ : ∃ t rest,
      split_text_into_segments text (maxCharsFor hint) (maxWordsFor hint) =
        t :: rest := by
    cases h : split_text_into_segments text (maxCharsFor hint) (maxWordsFor hint) with
    | nil => exact absurd h hsegs
    | cons a b => exact ⟨a, b, rfl⟩
  rw [hcons]
  obtain ⟨e, tail, heq2, _⟩ := redistributeAux_cons _ _ _ _ t rest _
  rw [heq2]
  rfl

/-- Witness for C6: one base segment `[0, 2]`, text splitting into two
segments. -/
theorem claim_C6_redistribute_regime_witness :
    (align_text_to_timing [⟨0, 2, "x"⟩] "Hello world. Good morning." "").head?.map
      TSeg.start = some (([⟨0, 2, "x"⟩] : List TSeg).headD dftSeg).start ∧
    List.Chain' (fun a b => b.start = a.stop + 0.1)
      (align_text_to_timing [⟨0, 2, "x"⟩] "Hello world. Good morning." "") ∧
    ∀ s ∈ align_text_to_timing [⟨0, 2, "x"⟩] "Hello world. Good morning." "",
      s.stop ≤ (([⟨0, 2, "x"⟩] : List TSeg).getLastD dftSeg).stop :=
  claim_C6_redistribute_regime [⟨0, 2, "x"⟩] "Hello world. Good morning." ""
    (by decide) (by decide)

/-- The merge-regime run boundary at 0 is 0. -/
theorem run_boundary_zero (n m : ℕ) : run_boundary n m 0 = 0 := by
  simp [run_boundary]

/-- The merge-regime run boundary at `n` is `m`. -/
theorem run_boundary_last (n m : ℕ) (hn : 0 < n) : run_boundary n m n = m := by
  unfold run_boundary
  have hn0 : (n : ℚ) ≠ 0 := by
    exact_mod_cast Nat.pos_iff_ne_zero.mp hn
  rw [mul_div_assoc'] at *
  have : (n : ℚ) * m / n = (m : ℚ) := by
    field_simp
  rw [this, Int.floor_natCast]
  simp

/-- Consecutive merge-regime run boundaries strictly increase when
`n < m`: each of the `n` runs is non-empty, so the runs
`[boundary i, boundary (i+1))` partition the `m` base entries contiguously
without gaps or overlap. -/
theorem run_boundary_step (n m i : ℕ) (hn : 0 < n) (hnm : n < m) :
    run_boundary n m i < run_boundary n m (i + 1) := by
  unfold run_boundary
  have hnq : (0 : ℚ) < n := by exact_mod_cast hn
  have hx0 : (0 : ℚ) ≤ (i : ℚ) * ((m : ℚ) / (n : ℚ)) := by positivity
  have hfl0 : 0 ≤ ⌊(i : ℚ) * ((m : ℚ) / (n : ℚ))⌋ := Int.floor_nonneg.mpr hx0
  have hstep : ⌊(i : ℚ) * ((m : ℚ) / (n : ℚ))⌋ + 1 ≤
      ⌊((i : ℚ) + 1) * ((m : ℚ) / (n : ℚ))⌋ := by
    apply Int.le_floor.mpr
    push_cast
    have h1 : ((⌊(i : ℚ) * ((m : ℚ) / (n : ℚ))⌋ : ℚ)) ≤
        (i : ℚ) * ((m : ℚ) / (n : ℚ)) := Int.floor_le _
    have h2 : (1 : ℚ) < (m : ℚ) / (n : ℚ) := by
      rw [lt_div_iff₀ hnq]
      have hq : (n : ℚ) < (m : ℚ) := by exact_mod_cast hnm
      linarith
    nlinarith
  have hcast : ((i : ℚ) + 1) = (((i + 1 : ℕ)) : ℚ) := by push_cast; ring
  rw [hcast] at hstep
  omega

/-- C4: the merge-regime boundaries `int(i*m/n)` are 0 at `i = 0`, `m` at
`i = n`, and strictly increasing for `n < m`, so the `n` runs partition all
`m` base entries contiguously without gaps or overlap; concretely, a base
timeline of 6 equal 1-second segments spanning 0–6 s aligned with text
segmenting into 2 segments yields exactly the two segments `[0,3]` and
`[3,6]`. -/
theorem claim_C4_merge_partition :
    (∀ n m : ℕ, 0 < n → n < m →
      run_boundary n m 0 = 0 ∧ run_boundary n m n = m ∧
      ∀ i, i < n → run_boundary n m i < run_boundary n m (i + 1)) ∧
    align_text_to_timing
        [⟨0, 1, "s1"⟩, ⟨1, 2, "s2"⟩, ⟨2, 3, "s3"⟩, ⟨3, 4, "s4"⟩,
         ⟨4, 5, "s5"⟩, ⟨5, 6, "s6"⟩]
        "Hello world. Good morning." "" =
      [⟨0, 3, "Hello world"⟩, ⟨3, 6, "Good morning"⟩] := by
  constructor
  · intro n m hn hnm
    exact ⟨run_boundary_zero n m, run_boundary_last n m hn,
      fun i _ => run_boundary_step n m i hn hnm⟩
  · decide

/-- Witness for C4 at `n = 2`, `m = 6`. -/
theorem claim_C4_merge_partition_witness :
    (run_boundary 2 6 0 = 0 ∧ run_boundary 2 6 2 = 6 ∧
      ∀ i, i < 2 → run_boundary 2 6 i < run_boundary 2 6 (i + 1)) ∧
    align_text_to_timing
        [⟨0, 1, "s1"⟩, ⟨1, 2, "s2"⟩, ⟨2, 3, "s3"⟩, ⟨3, 4, "s4"⟩,
         ⟨4, 5, "s5"⟩, ⟨5, 6, "s6"⟩]
        "Hello world. Good morning." "" =
      [⟨0, 3, "Hello world"⟩, ⟨3, 6, "Good morning"⟩] :=
  ⟨claim_C4_merge_partition.1 2 6 (by decide) (by decide),
   claim_C4_merge_partition.2⟩

/-- The render loop with a starting index equals the spec-side
filter-then-enumerate formulation. -/
theorem srtAux_eq_spec :
    ∀ (l : List TSeg) (idx : ℕ),
      srtAux idx l =
        joinStrings (((l.filter (fun s => pyStrip s.text != "")).enumFrom idx).map
          (fun p => cueBlock p.1 p.2)) := by
  intro l
  induction l with
  | nil =>
    intro idx
    rfl
  | cons s rest ih =>
    intro idx
    by_cases h : pyStrip s.text = ""
    · simp only [srtAux, if_pos h]
      rw [ih]
      have hb : (pyStrip s.text != "") = false := by
        simp [h]
      have hfilter : (s :: rest).filter (fun s => pyStrip s.text != "") =
          rest.filter (fun s => pyStrip s.text != "") := by
        simp [List.filter, hb]
      rw [hfilter]
    · simp only [srtAux, if_neg h]
      rw [ih]
      have hb : (pyStrip s.text != "") = true := by
        simp only [bne_iff_ne, ne_eq]
        exact h
      have hfilter : (s :: rest).filter (fun s => pyStrip s.text != "") =
          s :: rest.filter (fun s => pyStrip s.text != "") := by
        simp [List.filter, hb]
      rw [hfilter]
      rfl

/-- C7: the rendered subtitle text is the in-order concatenation of one
block per segment whose trimmed text is non-empty — each block
`index\nstart --> end\ntext\n\n` — segments trimming to empty are skipped,
and block indices are consecutive starting at 1. -/
theorem claim_C7_renderer_structure (l : List TSeg) :
    create_srt_content l = renderSubtitleFileSpec l := by
  unfold create_srt_content renderSubtitleFileSpec
  by_cases h : l = []
  · subst h
    rfl
  · rw [if_neg h, srtAux_eq_spec]

/-- Overlap resolution never lengthens the list: each input segment is
either pushed or merged into its predecessor. -/
theorem resolveAux_length_le :
    ∀ (rest : List NSeg) (prev : NSeg),
      (resolveAux prev rest).length ≤ rest.length + 1 := by
  intro rest
  induction rest with
  | nil =>
    intro prev
    simp [resolveAux]
  | cons s r ih =>
    intro prev
    simp only [resolveAux]
    by_cases h1 : s.start ≤ prev.stop
    · rw [if_pos h1]
      by_cases h2 : s.stop - (prev.stop + min_gap) < min_segment_duration
      · rw [if_pos h2]
        have hle := ih { prev with stop := s.stop, text := prev.text ++ " " ++ s.text }
        simp only [List.length_cons]
        omega
      · rw [if_neg h2]
        have hle := ih { s with start := prev.stop + min_gap }
        simp only [List.length_cons]
        omega
    · rw [if_neg h1]
      have hle := ih s
      simp only [List.length_cons]
      omega

/-- The overlap-resolution output is non-empty and its head keeps the open
segment's start (merging never changes the start). -/
theorem resolveAux_head_start :
    ∀ (rest : List NSeg) (prev : NSeg),
      ∃ t l, resolveAux prev rest = t :: l ∧ t.start = prev.start := by
  intro rest
  induction rest with
  | nil =>
    intro prev
    exact ⟨prev, [], rfl, rfl⟩
  | cons s r ih =>
    intro prev
    simp only [resolveAux]
    by_cases h1 : s.start ≤ prev.stop
    · rw [if_pos h1]
      by_cases h2 : s.stop - (prev.stop + min_gap) < min_segment_duration
      · rw [if_pos h2]
        exact ih { prev with stop := s.stop, text := prev.text ++ " " ++ s.text }
      · rw [if_neg h2]
        exact ⟨prev, _, rfl, rfl⟩
    · rw [if_neg h1]
      exact ⟨prev, _, rfl, rfl⟩

/-- Adjacent overlap-resolution outputs never overlap: once a segment is
pushed, the next pushed segment starts strictly after its (frozen) end. -/
theorem resolveAux_chain :
    ∀ (rest : List NSeg) (prev : NSeg),
      List.Chain' (fun a b : NSeg => a.stop < b.start) (resolveAux prev rest) := by
  intro rest
  induction rest with
  | nil =>
    intro prev
    simp [resolveAux]
  | cons s r ih =>
    intro prev
    simp only [resolveAux]
    by_cases h1 : s.start ≤ prev.stop
    · rw [if_pos h1]
      by_cases h2 : s.stop - (prev.stop + min_gap) < min_segment_duration
      · rw [if_pos h2]
        exact ih _
      · rw [if_neg h2]
        obtain ⟨t, l, heq, hstart⟩ :=
          resolveAux_head_start r { s with start := prev.stop + min_gap }
        rw [heq, List.chain'_cons']
        refine ⟨?_, ?_⟩
        · intro y hy
          simp only [List.head?_cons, Option.mem_some_iff] at hy
          subst hy
          rw [hstart]
          have hg : (0 : ℚ) < min_gap := by norm_num [min_gap]
          show prev.stop < prev.stop + min_gap
          linarith
        · rw [← heq]
          exact ih _
    · rw [if_neg h1]
      obtain ⟨t, l, heq, hstart⟩ := resolveAux_head_start r s
      rw [heq, List.chain'_cons']
      refine ⟨?_, ?_⟩
      · intro y hy
        simp only [List.head?_cons, Option.mem_some_iff] at hy
        subst hy
        rw [hstart]
        exact not_le.mp h1
      · rw [← heq]
        exact ih _

/-- When overlap resolution merges nothing (output length equals input
length plus the open segment), every output duration is bounded by the
durations fed in: pushing keeps or shrinks a duration, never grows it. -/
theorem resolveAux_durle :
    ∀ (rest : List NSeg) (prev : NSeg),
      (∀ x ∈ rest, x.stop - x.start ≤ max_segment_duration) →
      prev.stop - prev.start ≤ max_segment_duration →
      (resolveAux prev rest).length = rest.length + 1 →
      ∀ t ∈ resolveAux prev rest, t.stop - t.start ≤ max_segment_duration := by
  intro rest
  induction rest with
  | nil =>
    intro prev _ hprev _ t ht
    simp only [resolveAux, List.mem_singleton] at ht
    subst ht
    exact hprev
  | cons s r ih =>
    intro prev hall hprev hlen t ht
    simp only [resolveAux] at hlen ht
    by_cases h1 : s.start ≤ prev.stop
    · rw [if_pos h1] at hlen ht
      by_cases h2 : s.stop - (prev.stop + min_gap) < min_segment_duration
      · rw [if_pos h2] at hlen
        exfalso
        have hle := resolveAux_length_le r
          { prev with stop := s.stop, text := prev.text ++ " " ++ s.text }
        simp only [List.length_cons] at hlen
        omega
      · rw [if_neg h2] at hlen ht
        rcases List.mem_cons.mp ht with rfl | ht2
        · exact hprev
        · refine ih { s with start := prev.stop + min_gap }
            (fun x hx => hall x (List.mem_cons_of_mem _ hx)) ?_ ?_ t ht2
          · have hg : (0 : ℚ) < min_gap := by norm_num [min_gap]
            have hs6 := hall s (List.mem_cons_self _ _)
            show s.stop - (prev.stop + min_gap) ≤ max_segment_duration
            linarith
          · simp only [List.length_cons] at hlen ⊢
            omega
    · rw [if_neg h1] at hlen ht
      rcases List.mem_cons.mp ht with rfl | ht2
      · exact hprev
      · refine ih s (fun x hx => hall x (List.mem_cons_of_mem _ hx))
          (hall s (List.mem_cons_self _ _)) ?_ t ht2
        simp only [List.length_cons] at hlen ⊢
        omega

/-- When overlap resolution merges nothing, every output keeps a positive
duration: a bumped segment keeps at least `min_segment_duration`. -/
theorem resolveAux_pos :
    ∀ (rest : List NSeg) (prev : NSeg),
      (∀ x ∈ rest, x.start < x.stop) →
      prev.start < prev.stop →
      (resolveAux prev rest).length = rest.length + 1 →
      ∀ t ∈ resolveAux prev rest, t.start < t.stop := by
  intro rest
  induction rest with
  | nil =>
    intro prev _ hprev _ t ht
    simp only [resolveAux, List.mem_singleton] at ht
    subst ht
    exact hprev
  | cons s r ih =>
    intro prev hall hprev hlen t ht
    simp only [resolveAux] at hlen ht
    by_cases h1 : s.start ≤ prev.stop
    · rw [if_pos h1] at hlen ht
      by_cases h2 : s.stop - (prev.stop + min_gap) < min_segment_duration
      · rw [if_pos h2] at hlen
        exfalso
        have hle := resolveAux_length_le r
          { prev with stop := s.stop, text := prev.text ++ " " ++ s.text }
        simp only [List.length_cons] at hlen
        omega
      · rw [if_neg h2] at hlen ht
        rcases List.mem_cons.mp ht with rfl | ht2
        · exact hprev
        · refine ih { s with start := prev.stop + min_gap }
            (fun x hx => hall x (List.mem_cons_of_mem _ hx)) ?_ ?_ t ht2
          · have hmd : (0 : ℚ) < min_segment_duration := by
              norm_num [min_segment_duration]
            have hk := not_lt.mp h2
            show prev.stop + min_gap < s.stop
            linarith
          · simp only [List.length_cons] at hlen ⊢
            omega
    · rw [if_neg h1] at hlen ht
      rcases List.mem_cons.mp ht with rfl | ht2
      · exact hprev
      · refine ih s (fun x hx => hall x (List.mem_cons_of_mem _ hx))
          (hall s (List.mem_cons_self _ _)) ?_ t ht2
        simp only [List.length_cons] at hlen ⊢
        omega

/-- Strictly separated segments with positive durations are sorted
non-decreasing by start. -/
theorem chain_le_of_chain_lt_pos :
    ∀ l : List NSeg,
      List.Chain' (fun a b : NSeg => a.stop < b.start) l →
      (∀ x ∈ l, x.start < x.stop) →
      List.Chain' (fun a b : NSeg => a.start ≤ b.start) l := by
  intro l
  induction l with
  | nil =>
    intro _ _
    exact List.chain'_nil
  | cons a rest ih =>
    intro hc hpos
    cases rest with
    | nil => simp
    | cons b r2 =>
      rw [List.chain'_cons] at hc ⊢
      refine ⟨?_, ih hc.2 (fun x hx => hpos x (List.mem_cons_of_mem _ hx))⟩
      have h1 := hpos a (List.mem_cons_self _ _)
      have h2 := hc.1
      linarith

/-- After the filter/shift/clip stage, every segment's duration is at most
`max_segment_duration` (the clip truncates the end exactly when needed). -/
theorem preSegs_durle (raws : List RawSeg) (off : ℚ) :
    ∀ s ∈ preSegs raws off, s.stop - s.start ≤ max_segment_duration := by
  intro s hs
  unfold preSegs at hs
  rw [List.mem_filterMap] at hs
  obtain ⟨r, hrmem, hr⟩ := hs
  dsimp only at hr
  by_cases h1 : r.stop - r.start < min_segment_duration
  · rw [if_pos h1] at hr
    exact absurd hr (by simp)
  · rw [if_neg h1] at hr
    by_cases h2 : (pyStrip r.text).length < 2
    · rw [if_pos h2] at hr
      exact absurd hr (by simp)
    · rw [if_neg h2] at hr
      rw [Option.some.injEq] at hr
      subst hr
      by_cases h3 : max_segment_duration <
          (r.stop - off) - max 0 (r.start - off)
      · show (if max_segment_duration < (r.stop - off) - max 0 (r.start - off)
            then max 0 (r.start - off) + max_segment_duration
            else r.stop - off) - max 0 (r.start - off) ≤ max_segment_duration
        rw [if_pos h3]
        linarith
      · show (if max_segment_duration < (r.stop - off) - max 0 (r.start - off)
            then max 0 (r.start - off) + max_segment_duration
            else r.stop - off) - max 0 (r.start - off) ≤ max_segment_duration
        rw [if_neg h3]
        linarith [not_lt.mp h3]

/-- After the filter/shift/clip stage, every segment has a positive
duration, provided raw starts are non-negative and the offset is within the
code's own cap `0 ≤ offset ≤ 0.5`. -/
theorem preSegs_pos (raws : List RawSeg) (off : ℚ)
    (hstart : ∀ r ∈ raws, 0 ≤ r.start) (_hoff0 : 0 ≤ off) (hoff : off ≤ 1/2) :
    ∀ s ∈ preSegs raws off, s.start < s.stop := by
  intro s hs
  unfold preSegs at hs
  rw [List.mem_filterMap] at hs
  obtain ⟨r, hrmem, hr⟩ := hs
  dsimp only at hr
  by_cases h1 : r.stop - r.start < min_segment_duration
  · rw [if_pos h1] at hr
    exact absurd hr (by simp)
  · rw [if_neg h1] at hr
    by_cases h2 : (pyStrip r.text).length < 2
    · rw [if_pos h2] at hr
      exact absurd hr (by simp)
    · rw [if_neg h2] at hr
      rw [Option.some.injEq] at hr
      subst hr
      have hr8 : min_segment_duration ≤ r.stop - r.start := not_lt.mp h1
      have hmd : min_segment_duration = 0.8 := rfl
      have hr0 : 0 ≤ r.start := hstart r hrmem
      by_cases h3 : max_segment_duration <
          (r.stop - off) - max 0 (r.start - off)
      · show max 0 (r.start - off) <
          (if max_segment_duration < (r.stop - off) - max 0 (r.start - off)
           then max 0 (r.start - off) + max_segment_duration
           else r.stop - off)
        rw [if_pos h3]
        have hM : max_segment_duration = 6 := rfl
        linarith
      · show max 0 (r.start - off) <
          (if max_segment_duration < (r.stop - off) - max 0 (r.start - off)
           then max 0 (r.start - off) + max_segment_duration
           else r.stop - off)
        rw [if_neg h3]
        apply max_lt
        · linarith
        · linarith

/-- Membership in an insertion. -/
theorem mem_insertByStart :
    ∀ (l : List NSeg) (x y : NSeg),
      y ∈ insertByStart x l → y = x ∨ y ∈ l := by
  intro l
  induction l with
  | nil =>
    intro x y h
    simp only [insertByStart, List.mem_singleton] at h
    exact Or.inl h
  | cons z zs ih =>
    intro x y h
    simp only [insertByStart] at h
    by_cases hc : x.start < z.start
    · rw [if_pos hc] at h
      rcases List.mem_cons.mp h with rfl | h2
      · exact Or.inl rfl
      · exact Or.inr h2
    · rw [if_neg hc] at h
      rcases List.mem_cons.mp h with rfl | h2
      · exact Or.inr (List.mem_cons_self _ _)
      · rcases ih x y h2 with h3 | h3
        · exact Or.inl h3
        · exact Or.inr (List.mem_cons_of_mem _ h3)

/-- Sorting by start does not introduce new segments. -/
theorem mem_sortByStart :
    ∀ (l : List NSeg) (y : NSeg), y ∈ sortByStart l → y ∈ l := by
  intro l
  induction l with
  | nil =>
    intro y h
    simp [sortByStart] at h
  | cons x xs ih =>
    intro y h
    simp only [sortByStart] at h
    rcases mem_insertByStart _ x y h with rfl | h2
    · exact List.mem_cons_self _ _
    · exact List.mem_cons_of_mem _ (ih y h2)

/-- Insertion increases the length by one. -/
theorem length_insertByStart :
    ∀ (l : List NSeg) (x : NSeg),
      (insertByStart x l).length = l.length + 1 := by
  intro l
  induction l with
  | nil =>
    intro x
    rfl
  | cons z zs ih =>
    intro x
    simp only [insertByStart]
    by_cases hc : x.start < z.start
    · rw [if_pos hc]
      rfl
    · rw [if_neg hc]
      simp only [List.length_cons, ih]

/-- Sorting preserves the length. -/
theorem length_sortByStart :
    ∀ l : List NSeg, (sortByStart l).length = l.length := by
  intro l
  induction l with
  | nil => rfl
  | cons x xs ih =>
    simp only [sortByStart, length_insertByStart, ih, List.length_cons]

/-- C1 fails as stated: the normalizer's overlap merge can extend a
segment beyond `max_segment_duration` (raw segments `[0,6]` and
`[5.95,6.8]` merge to `[0,6.8]`), and the aligner's one-to-one regime
inherits base durations unchecked (a 10-second base cue stays 10 seconds). -/
theorem claim_C1_counterexample :
    (∃ s ∈ generate_precise_timed_segments
        [⟨0, 6, "aa", 0⟩, ⟨5.95, 6.8, "bb", 0⟩] 0,
      max_segment_duration < s.stop - s.start) ∧
    (∃ s ∈ align_text_to_timing [⟨0, 10, "x"⟩] "Hello" "",
      max_segment_duration < s.stop - s.start) := by
  constructor
  · decide
  · decide

/-- C1 (amended): the normalizer's clip stage bounds every duration by
`MAX_SEGMENT_DURATION = 6.0`, and the bound survives overlap resolution
whenever that resolution merges nothing; the overlap-resolution merge step
and the aligner's timing-inheriting regimes can exceed the bound. -/
theorem claim_C1_amended_max_duration :
    (∀ (raws : List RawSeg) (off : ℚ), ∀ s ∈ preSegs raws off,
      s.stop - s.start ≤ max_segment_duration) ∧
    (∀ (raws : List RawSeg) (off : ℚ),
      (generate_precise_timed_segments raws off).length =
        (preSegs raws off).length →
      ∀ s ∈ generate_precise_timed_segments raws off,
        s.stop - s.start ≤ max_segment_duration) := by
  constructor
  · exact fun raws off => preSegs_durle raws off
  · intro raws off hlen s hs
    unfold generate_precise_timed_segments at hs hlen
    cases hL : sortByStart (preSegs raws off) with
    | nil =>
      rw [hL] at hs
      simp [resolveOverlaps] at hs
    | cons x xs =>
      rw [hL] at hs hlen
      simp only [resolveOverlaps] at hs hlen
      have hlen2 : (resolveAux x xs).length = xs.length + 1 := by
        have h3 := length_sortByStart (preSegs raws off)
        rw [hL] at h3
        simp only [List.length_cons] at h3
        omega
      have hall : ∀ y ∈ x :: xs, y.stop - y.start ≤ max_segment_duration := by
        intro y hy
        have hy2 : y ∈ sortByStart (preSegs raws off) := by
          rw [hL]
          exact hy
        exact preSegs_durle raws off y (mem_sortByStart _ y hy2)
      exact resolveAux_durle xs x
        (fun y hy => hall y (List.mem_cons_of_mem _ hy))
        (hall x (List.mem_cons_self _ _)) hlen2 s hs

/-- Witness for C1 (amended) on a single well-formed raw segment. -/
theorem claim_C1_amended_max_duration_witness :
    ((⟨0, 2, "aa", 0, 1⟩ : NSeg) ∈ preSegs [⟨0, 2, "aa", 0⟩] 0) ∧
    ((⟨0, 2, "aa", 0, 1⟩ : NSeg).stop - (⟨0, 2, "aa", 0, 1⟩ : NSeg).start ≤
      max_segment_duration) ∧
    ((generate_precise_timed_segments [⟨0, 2, "aa", 0⟩] 0).length =
      (preSegs [⟨0, 2, "aa", 0⟩] 0).length) ∧
    (∀ s ∈ generate_precise_timed_segments [⟨0, 2, "aa", 0⟩] 0,
      s.stop - s.start ≤ max_segment_duration) :=
  ⟨by decide,
   claim_C1_amended_max_duration.1 [⟨0, 2, "aa", 0⟩] 0 _ (by decide),
   by decide,
   claim_C1_amended_max_duration.2 [⟨0, 2, "aa", 0⟩] 0 (by decide)⟩

/-- C3 fails as stated: on raw segments
`[0,6], [1,7.5], [1.5,3], [3.5,4.5]` (offset 0) the normalizer outputs
starts `0, 6.1, 3.5` — not sorted — and its second output has
`end = 3 < start = 6.1`; a merge after a bump shrank a frozen start's
segment below its own start. -/
theorem claim_C3_counterexample :
    (generate_precise_timed_segments
        [⟨0, 6, "aa", 0⟩, ⟨1, 7.5, "bb", 0⟩, ⟨1.5, 3, "cc", 0⟩,
         ⟨3.5, 4.5, "dd", 0⟩] 0).map (fun s => (s.start, s.stop)) =
      [(0, 6), (6.1, 3), (3.5, 4.5)] ∧
    ¬ List.Chain' (fun a b : NSeg => a.start ≤ b.start)
        (generate_precise_timed_segments
          [⟨0, 6, "aa", 0⟩, ⟨1, 7.5, "bb", 0⟩, ⟨1.5, 3, "cc", 0⟩,
           ⟨3.5, 4.5, "dd", 0⟩] 0) ∧
    ¬ (∀ s ∈ generate_precise_timed_segments
          [⟨0, 6, "aa", 0⟩, ⟨1, 7.5, "bb", 0⟩, ⟨1.5, 3, "cc", 0⟩,
           ⟨3.5, 4.5, "dd", 0⟩] 0, s.start < s.stop) := by
  refine ⟨by decide, ?_, by decide⟩
  intro hc
  have heq : generate_precise_timed_segments
      [⟨0, 6, "aa", 0⟩, ⟨1, 7.5, "bb", 0⟩, ⟨1.5, 3, "cc", 0⟩,
       ⟨3.5, 4.5, "dd", 0⟩] 0 =
      [⟨0, 6, "aa", 0, 1⟩, ⟨6.1, 3, "bb cc", 0, 1⟩, ⟨3.5, 4.5, "dd", 0, 1⟩] := by
    decide
  rw [heq, List.chain'_cons, List.chain'_cons] at hc
  exact absurd hc.2.1 (by decide)

/-- C3 (amended): adjacent normalizer outputs always satisfy
`start[i+1] ≥ end[i]`; and whenever raw starts are non-negative, the offset
lies in the code's own cap `[0, 0.5]`, and overlap resolution merges
nothing, the output is additionally sorted non-decreasing by start with
`end > start` for every segment.  (With merges, a merge after a bump can
shrink a segment's end below its own start, breaking both.) -/
theorem claim_C3_amended_ordering :
    (∀ (raws : List RawSeg) (off : ℚ),
      List.Chain' (fun a b : NSeg => a.stop ≤ b.start)
        (generate_precise_timed_segments raws off)) ∧
    (∀ (raws : List RawSeg) (off : ℚ),
      (∀ r ∈ raws, 0 ≤ r.start) → 0 ≤ off → off ≤ 1/2 →
      (generate_precise_timed_segments raws off).length =
        (preSegs raws off).length →
      List.Chain' (fun a b : NSeg => a.start ≤ b.start)
        (generate_precise_timed_segments raws off) ∧
      ∀ s ∈ generate_precise_timed_segments raws off, s.start < s.stop) := by
  constructor
  · intro raws off
    unfold generate_precise_timed_segments
    cases hL : sortByStart (preSegs raws off) with
    | nil =>
      simp [resolveOverlaps]
    | cons x xs =>
      simp only [resolveOverlaps]
      exact List.Chain'.imp (fun a b h => le_of_lt h) (resolveAux_chain xs x)
  · intro raws off hstart hoff0 hoff hlen
    unfold generate_precise_timed_segments at hlen ⊢
    cases hL : sortByStart (preSegs raws off) with
    | nil =>
      simp [resolveOverlaps]
    | cons x xs =>
      rw [hL] at hlen
      simp only [resolveOverlaps] at hlen ⊢
      have hlen2 : (resolveAux x xs).length = xs.length + 1 := by
        have h3 := length_sortByStart (preSegs raws off)
        rw [hL] at h3
        simp only [List.length_cons] at h3
        omega
      have hall : ∀ y ∈ x :: xs, y.start < y.stop := by
        intro y hy
        have hy2 : y ∈ sortByStart (preSegs raws off) := by
          rw [hL]
          exact hy
        exact preSegs_pos raws off hstart hoff0 hoff y (mem_sortByStart _ y hy2)
      have hpos := resolveAux_pos xs x
        (fun y hy => hall y (List.mem_cons_of_mem _ hy))
        (hall x (List.mem_cons_self _ _)) hlen2
      exact ⟨chain_le_of_chain_lt_pos _ (resolveAux_chain xs x) hpos, hpos⟩

/-- Witness for C3 (amended) on a single well-formed raw segment with
offset 0. -/
theorem claim_C3_amended_ordering_witness :
    List.Chain' (fun a b : NSeg => a.stop ≤ b.start)
      (generate_precise_timed_segments [⟨0, 2, "ab", 0⟩] 0) ∧
    List.Chain' (fun a b : NSeg => a.start ≤ b.start)
      (generate_precise_timed_segments [⟨0, 2, "ab", 0⟩] 0) ∧
    (∀ s ∈ generate_precise_timed_segments [⟨0, 2, "ab", 0⟩] 0,
      s.start < s.stop) :=
  ⟨claim_C3_amended_ordering.1 [⟨0, 2, "ab", 0⟩] 0,
   (claim_C3_amended_ordering.2 [⟨0, 2, "ab", 0⟩] 0 (by decide) (by norm_num)
     (by norm_num) (by decide)).1,
   (claim_C3_amended_ordering.2 [⟨0, 2, "ab", 0⟩] 0 (by decide) (by norm_num)
     (by norm_num) (by decide)).2⟩

end Tanglish
